import Mathlib

/-!
Verification of the aoc-deltatime leaderboard tool (src/main.py) against its
natural-language specification.

The Python program is shallowly embedded as follows:
* JSON dictionaries become association lists in insertion order (Python dicts
  preserve insertion order); dictionary assignment `d[k] = v` becomes
  `alUpdate` (replace in place when the key is present, append otherwise),
  and dictionary lookup becomes `alLookup`.
* Day keys of `completion_day_level` and `days_dt` are strings of canonical
  decimal numerals in the source; they are modelled as `Nat` (the program only
  converts them with `int(...)`/`str(...)`, which are inverses on such keys).
* Machine integers and timestamps are `Int`.  Python `%` and `//` are floored
  division; every divisor appearing in the program is a positive literal, on
  which Lean's `Int.emod`/`Int.ediv` (the `%`/`/` notation) agree with
  flooring, so they are used directly.
* Python float division `sum_dt / count` is modelled exactly in `Rat`.
* `sorted(..., key=f)` is a stable sort by `f`; it is modelled by
  `List.insertionSort` with the corresponding (total, transitive, decidable)
  relation, which is stable, and stability is proved where a claim needs it.
* I/O (`update_if_possible`, `run`) is modelled by pure functions over an
  explicit environment recording the cache file's modification time, the
  current time and the HTTP response, returning a trace that records whether
  an HTTP request happened, what was written, and whether the cache was read.
-/

/-! ### Association lists (Python dictionaries in insertion order) -/

/-- Python dictionary assignment `d[k] = v`: replace the value of the first
occurrence of `k` in place, otherwise append `(k, v)`. -/
def alUpdate {α β : Type} [DecidableEq α] (k : α) (v : β) : List (α × β) → List (α × β)
  | [] => [(k, v)]
  | p :: rest => if p.1 = k then (k, v) :: rest else p :: alUpdate k v rest

/-- Python dictionary lookup `d[k]` (first occurrence). -/
def alLookup {α β : Type} [DecidableEq α] (k : α) : List (α × β) → Option β
  | [] => none
  | p :: rest => if p.1 = k then some p.2 else alLookup k rest

/-- Python `defaultdict(int)` increment `d[k] += v`. -/
def alAdd (k : String) (v : Int) : List (String × Int) → List (String × Int)
  | [] => [(k, v)]
  | p :: rest => if p.1 = k then (p.1, p.2 + v) :: rest else p :: alAdd k v rest

/-! ### Data model (src/main.py lines 31--62) -/

/-- One `{"get_star_ts": ts}` / optional second-star object of
`completion_day_level[day]`: `star1` is `day_data["1"]["get_star_ts"]` and
`star2` is `day_data["2"]["get_star_ts"]` when the second star exists. -/
structure DayData where
  star1 : Int
  star2 : Option Int
deriving DecidableEq

/-- Raw per-member JSON object. -/
structure RawMember where
  name : String
  local_score : Int
  stars : Int
  completion_day_level : List (Nat × DayData)
deriving DecidableEq

/-- Raw leaderboard JSON: `{"event": ..., "members": {...}}`. -/
structure RawData where
  event : Int
  members : List (String × RawMember)
deriving DecidableEq

/-- `member.days[day]` as built by `parse_data`.  The source stores the whole
dict `day_data.get("2", {"get_star_ts": 0})` in `second_complete`; only its
timestamp (with the default `0`) is kept here. -/
structure DayEntry where
  delta_time : Int
  first_complete : Int
  second_complete : Int
deriving DecidableEq

/-- The `Member` dataclass (src/main.py lines 43--51). -/
structure Member where
  id : String
  name : String
  score : Int
  stars : Int
  days : List (Nat × DayEntry)
  sum_dt : Int
  avg_dt : Rat
deriving DecidableEq

/-- `days_dt`: day number -> (member id -> delta time), in insertion order. -/
abbrev DaysDT := List (Nat × List (String × Int))

/-- The `AOCData` dataclass (src/main.py lines 54--62). -/
structure AOCData where
  year : Int
  members : List (String × Member)
  days_dt : DaysDT
  last_day : Nat
deriving DecidableEq

/-- `days_dt[day][member_id] = dt` (both levels are `defaultdict`s). -/
def ddInsert (day : Nat) (mid : String) (dt : Int) : DaysDT → DaysDT
  | [] => [(day, [(mid, dt)])]
  | p :: rest => if p.1 = day then (p.1, alUpdate mid dt p.2) :: rest else p :: ddInsert day mid dt rest

/-- `days_dt[day]` with the `defaultdict` default `{}`. -/
def dayItems (dd : DaysDT) (day : Nat) : List (String × Int) :=
  (alLookup day dd).getD []

/-! ### Parser (src/main.py lines 84--126, `parse_data`) -/

/-- `day_data.get("2", {"get_star_ts": 0})["get_star_ts"]`. -/
def star2def (d : DayData) : Int :=
  d.star2.getD 0

/-- State threaded through the inner `for day, day_data in ...` loop of
`parse_data`, together with the per-member accumulators. -/
structure PDayAcc where
  last_day : Nat
  sum_dt : Int
  count : Nat
  days : List (Nat × DayEntry)
  days_dt : DaysDT
deriving DecidableEq

/-- Body of the inner day loop of `parse_data` (src/main.py lines 102--116),
in source order: bump `last_day`, compute `delta_time`, accumulate
`sum_dt`/`count` only when the second star exists, record `member.days[day]`,
record `days_dt[day][member_id]`. -/
def pDayStep (mid : String) (acc : PDayAcc) (p : Nat × DayData) : PDayAcc :=
  ⟨max acc.last_day p.1,
   if p.2.star2.isSome then acc.sum_dt + (star2def p.2 - p.2.star1) else acc.sum_dt,
   if p.2.star2.isSome then acc.count + 1 else acc.count,
   alUpdate p.1 ⟨star2def p.2 - p.2.star1, p.2.star1, star2def p.2⟩ acc.days,
   ddInsert p.1 mid (star2def p.2 - p.2.star1) acc.days_dt⟩

/-- State threaded through the outer member loop of `parse_data`. -/
structure PAcc where
  last_day : Nat
  members : List (String × Member)
  days_dt : DaysDT
deriving DecidableEq

/-- Body of the outer member loop of `parse_data` (src/main.py lines 90--124):
run the day loop, then set `avg_dt` (sentinel `-1.0` when `count == 0`, else
exact division) and `sum_dt`, and store the member. -/
def pMemberStep (acc : PAcc) (p : String × RawMember) : PAcc :=
  let r := p.2.completion_day_level.foldl (pDayStep p.1) ⟨acc.last_day, 0, 0, [], acc.days_dt⟩
  let average_dt : Rat := if r.count = 0 then -1 else (r.sum_dt : Rat) / (r.count : Rat)
  ⟨r.last_day,
   alUpdate p.1 ⟨p.1, p.2.name, p.2.local_score, p.2.stars, r.days, r.sum_dt, average_dt⟩ acc.members,
   r.days_dt⟩

/-- `parse_data` (src/main.py lines 84--126). -/
def parse_data (d : RawData) : AOCData :=
  let st := d.members.foldl pMemberStep ⟨1, [], []⟩
  ⟨d.event, st.members, st.days_dt, st.last_day⟩

/-- The member record `parse_data` builds for the pair `(mid, md)`; its
fields do not depend on the loop state (`last_day`, `days_dt`) threaded
through the other members, which is proved below. -/
def mkMember (mid : String) (md : RawMember) : Member :=
  let r := md.completion_day_level.foldl (pDayStep mid) ⟨1, 0, 0, [], []⟩
  ⟨mid, md.name, md.local_score, md.stars, r.days, r.sum_dt,
   if r.count = 0 then -1 else (r.sum_dt : Rat) / (r.count : Rat)⟩

/-- The days of a member that have both stars. -/
def bothStarDays (md : RawMember) : List (Nat × DayData) :=
  md.completion_day_level.filter (fun p => p.2.star2.isSome)

/-- Number of both-star days of a member. -/
def bothStarCount (md : RawMember) : Nat :=
  (bothStarDays md).length

/-- Sum of the delta times of the both-star days of a member. -/
def bothStarSum (md : RawMember) : Int :=
  ((bothStarDays md).map (fun p => star2def p.2 - p.2.star1)).sum

/-! ### Ranking (src/main.py lines 61--62 and 174--205) -/

/-- The comparison `key=lambda x: x[1]` of `sorted` in `ranked_days_dt` and
`display_total`: ascending delta time. -/
def dtLE (a b : String × Int) : Prop := a.2 ≤ b.2

instance : DecidableRel dtLE := fun a b => inferInstanceAs (Decidable (a.2 ≤ b.2))

instance : IsTotal (String × Int) dtLE := ⟨fun a b => le_total a.2 b.2⟩

instance : IsTrans (String × Int) dtLE := ⟨fun _ _ _ h1 h2 => le_trans h1 h2⟩

/-- The comparison `key=lambda x: -x[1]` of `sorted` in `display_total`:
descending total points. -/
def negPointsLE (a b : String × Int) : Prop := -a.2 ≤ -b.2

instance : DecidableRel negPointsLE := fun a b => inferInstanceAs (Decidable (-a.2 ≤ -b.2))

instance : IsTotal (String × Int) negPointsLE := ⟨fun a b => le_total (-a.2) (-b.2)⟩

instance : IsTrans (String × Int) negPointsLE := ⟨fun _ _ _ h1 h2 => le_trans h1 h2⟩

/-- `AOCData.ranked_days_dt` (src/main.py lines 61--62):
`sorted(list(self.days_dt[day].items()), key=lambda x: x[1])`.  Python's
`sorted` is a stable ascending sort by the key; `insertionSort` is stable. -/
def AOCData.ranked_days_dt (data : AOCData) (day : Nat) : List (String × Int) :=
  List.insertionSort dtLE (dayItems data.days_dt day)

/-! ### Presenter (src/main.py lines 155--171, `format_dt`) -/

/-- `format_dt` (src/main.py lines 155--171), verbatim: every divisor is a
positive literal, on which `%`/`/` on `Int` agree with Python's floored
`%`/`//`. -/
def format_dt (dt : Int) : String :=
  if dt > 60 * 60 * 24 then ">24h"
  else
    let s := dt % 60
    let m := ((dt - s) % (60 * 60)) / 60
    let h := ((dt - s - m * 60) % (60 * 60 * 60)) / 3600
    let d := ((dt - s - m * 60 - h * 60) % (60 * 60 * 60 * 24)) / (3600 * 24)
    let out := ""
    let out := if d > 0 then out ++ toString d ++ "d" else out
    let out := if h > 0 then out ++ toString h ++ "h" else out
    let out := if m > 0 then out ++ toString m ++ "m" else out
    let out := if s > 0 then out ++ toString s ++ "s" else out
    out

/-- The formatter described by the specification's words (claim C8): the
standard days/hours/minutes/seconds decomposition of the duration, rendered
with unit letters, omitting zero-valued units.  Stated for comparison with
`format_dt`, which is translated from the source. -/
def format_dt_spec (dt : Int) : String :=
  let d := dt / 86400
  let h := dt % 86400 / 3600
  let m := dt % 3600 / 60
  let s := dt % 60
  let out := ""
  let out := if d > 0 then out ++ toString d ++ "d" else out
  let out := if h > 0 then out ++ toString h ++ "h" else out
  let out := if m > 0 then out ++ toString m ++ "m" else out
  let out := if s > 0 then out ++ toString s ++ "s" else out
  out

/-! ### Display (src/main.py lines 174--205) -/

/-- Line 175 of src/main.py: `max(map(lambda x: int(x), data.days_dt.keys()))`.
Python `max` raises `ValueError` on an empty sequence; the partiality is
modelled by `Option` (`none` exactly when `days_dt` is empty). -/
def display_ranking_last_day (data : AOCData) : Option Nat :=
  (data.days_dt.map Prod.fst).max?

/-- The rows of the per-day table of `display_ranking` (src/main.py lines
180--188): name, formatted delta time, and points `len(data.members) - rank`,
keeping only rows whose points are positive.  The source's
`data.members[member_id].name` raises on a missing key; the default `""` here
is never reached for parsed snapshots (claim C9). -/
def display_ranking_rows (data : AOCData) (day : Nat) : List (String × String × String) :=
  (((data.ranked_days_dt day).enum.filter
      (fun p => decide (0 < (data.members.length : Int) - (p.1 : Int)))).map
    (fun p => (((alLookup p.2.1 data.members).map Member.name).getD "",
               format_dt p.2.2,
               toString ((data.members.length : Int) - (p.1 : Int)))))

/-- The points column of `display_ranking` for one day: the values
`len(data.members) - rank` surviving the `> 0` guard. -/
def display_ranking_points (data : AOCData) (day : Nat) : List Int :=
  (((data.ranked_days_dt day).enum.filter
      (fun p => decide (0 < (data.members.length : Int) - (p.1 : Int)))).map
    (fun p => (data.members.length : Int) - (p.1 : Int)))

/-- The `total_points` defaultdict after the day loop of `display_total`
(src/main.py lines 193--197): for `day` in `1..last_day`, sort that day's
items by delta time and add `len(data.members) - rank` to each member. -/
def display_total_points (data : AOCData) : List (String × Int) :=
  (List.range data.last_day).foldl
    (fun tp i =>
      (List.insertionSort dtLE (dayItems data.days_dt (i + 1))).enum.foldl
        (fun tp p => alAdd p.2.1 ((data.members.length : Int) - (p.1 : Int)) tp) tp)
    []

/-- `id_points_ordered` (src/main.py line 199):
`sorted(list(total_points.items()), key=lambda x: -x[1])`. -/
def id_points_ordered (data : AOCData) : List (String × Int) :=
  List.insertionSort negPointsLE (display_total_points data)

/-- The points a member earns on one day according to the specification: the
member's 0-indexed rank `r` in the day's ascending sort awards
`len(members) - r`; a member absent from the day's delta-time mapping gets
nothing. -/
def member_day_points (data : AOCData) (day : Nat) (mid : String) : Int :=
  match (List.insertionSort dtLE (dayItems data.days_dt day)).enum.find?
      (fun p => decide (p.2.1 = mid)) with
  | some p => (data.members.length : Int) - (p.1 : Int)
  | none => 0

/-! ### Fetcher and driver (src/main.py lines 129--152 and 208--222) -/

/-- The ambient world `update_if_possible` interacts with: the cache file's
modification time (`none` when `os.path.getmtime` raises
`FileNotFoundError`), the current time, and the remote response.  The
response body is modelled post-`r.json()` decoding. -/
structure FetchEnv where
  cacheMtime : Option Int
  now : Int
  responseOk : Bool
  responseBody : RawData
deriving DecidableEq

/-- What one call of `update_if_possible` did: its return value, whether the
HTTP GET was issued, and what (if anything) was written to the cache file. -/
structure FetchOutcome where
  ok : Bool
  httpCalled : Bool
  written : Option RawData
deriving DecidableEq

/-- `update_if_possible` (src/main.py lines 129--152): skip with success when
the cache was modified less than `15 * 60` seconds ago; otherwise GET, and on
a non-ok response return failure without writing; on success write the body
and return success. -/
def update_if_possible (env : FetchEnv) : FetchOutcome :=
  let fresh : Bool := match env.cacheMtime with
    | some m => decide (env.now - m < 15 * 60)
    | none => false
  if fresh then ⟨true, false, none⟩
  else if !env.responseOk then ⟨false, true, none⟩
  else ⟨true, true, some env.responseBody⟩

/-- Result of `run`: either the `assert` on `update_if_possible` fired, or the
cache file was read, parsed, and the views rendered from the parsed data. -/
inductive RunResult where
  | aborted : RunResult
  | done : AOCData → RunResult
deriving DecidableEq

/-- Trace of one `run` (src/main.py lines 208--222): the result, whether an
HTTP request was made, what was written to the cache file, and whether the
cache file was read (and hence parsed). -/
structure RunTrace where
  result : RunResult
  httpCalled : Bool
  cacheWritten : Option RawData
  cacheRead : Bool
deriving DecidableEq

/-- Environment of `run`: the fetch environment, the `--update` flag, and the
cache file's current (decoded) content. -/
structure RunEnv where
  fetch : FetchEnv
  flagsUpdate : Bool
  cacheContent : RawData
deriving DecidableEq

/-- `run` (src/main.py lines 208--222): with `--update`, a failed
`update_if_possible` trips the `assert` before the cache file is opened;
otherwise the (possibly freshly written) cache file is read and parsed. -/
def run (env : RunEnv) : RunTrace :=
  if env.flagsUpdate then
    let r := update_if_possible env.fetch
    if !r.ok then ⟨RunResult.aborted, r.httpCalled, r.written, false⟩
    else
      let content := (r.written).getD env.cacheContent
      ⟨RunResult.done (parse_data content), r.httpCalled, r.written, true⟩
  else ⟨RunResult.done (parse_data env.cacheContent), false, none, true⟩

/-! ### Concrete leaderboard inputs used in counterexamples and witnesses -/

/-- Two members; only `"a"` has a completion (day 1, both stars, delta 100). -/
def c1raw : RawData :=
  ⟨2022, [("a", ⟨"A", 0, 1, [(1, ⟨0, some 100⟩)]⟩), ("b", ⟨"B", 0, 0, []⟩)]⟩

/-- A member whose single day has the second star 1 second BEFORE the first:
delta time `-1`, so the average equals the sentinel with one both-star day. -/
def c2md : RawMember := ⟨"A", 0, 2, [(1, ⟨5, some 4⟩)]⟩

/-- Snapshot containing only `c2md`. -/
def c2raw : RawData := ⟨2022, [("a", c2md)]⟩

/-- One member with no completions at all. -/
def c2wraw : RawData := ⟨2022, [("w", ⟨"W", 0, 0, []⟩)]⟩

/-- A member with only a first star on day 3 (timestamp 50). -/
def c3md : RawMember := ⟨"S", 0, 1, [(3, ⟨50, none⟩)]⟩

/-- Snapshot containing only `c3md`. -/
def c3raw : RawData := ⟨2022, [("s", c3md)]⟩

/-- Fresh cache: modified at 1000, now 1100 (100 s < 15 min), update requested. -/
def c6env : RunEnv := ⟨⟨some 1000, 1100, true, ⟨2022, []⟩⟩, true, ⟨2022, []⟩⟩

/-- Missing cache file, failing HTTP response, update requested. -/
def c7env : RunEnv := ⟨⟨none, 5000, false, ⟨2022, []⟩⟩, true, ⟨2022, []⟩⟩

/-- One member, no completions: parses fine but `days_dt` is empty. -/
def c10raw : RawData := ⟨2022, [("e", ⟨"E", 0, 0, []⟩)]⟩

/-! ### Association list lemmas -/

theorem alUpdate_lookup_self {α β : Type} [DecidableEq α] (k : α) (v : β) (l : List (α × β)) :
    alLookup k (alUpdate k v l) = some v := by
  induction l with
  | nil => simp [alUpdate, alLookup]
  | cons p rest ih =>
    by_cases h : p.1 = k
    · simp [alUpdate, h, alLookup]
    · simp [alUpdate, h, alLookup, ih]

theorem alUpdate_lookup_ne {α β : Type} [DecidableEq α] {k k' : α} (h : k' ≠ k) (v : β)
    (l : List (α × β)) : alLookup k' (alUpdate k v l) = alLookup k' l := by
  have h1 : ¬ k = k' := Ne.symm h
  induction l with
  | nil => simp [alUpdate, alLookup, h1]
  | cons p rest ih =>
    by_cases hp : p.1 = k
    · have h2 : ¬ p.1 = k' := fun hh => h1 (hp ▸ hh)
      simp [alUpdate, hp, alLookup, h1, h2]
    · by_cases hp' : p.1 = k'
      · simp [alUpdate, hp, alLookup, hp', h]
      · simp [alUpdate, hp, alLookup, hp', ih]

theorem alUpdate_keys_mem {α β : Type} [DecidableEq α] (k a : α) (v : β) (l : List (α × β)) :
    a ∈ (alUpdate k v l).map Prod.fst ↔ a ∈ l.map Prod.fst ∨ a = k := by
  induction l with
  | nil => simp [alUpdate]
  | cons p rest ih =>
    by_cases h : p.1 = k
    · simp only [alUpdate, if_pos h, List.map_cons, List.mem_cons]
      rw [h]
      tauto
    · simp only [alUpdate, if_neg h, List.map_cons, List.mem_cons, ih]
      tauto

theorem alUpdate_keys_nodup {α β : Type} [DecidableEq α] (k : α) (v : β) (l : List (α × β))
    (h : (l.map Prod.fst).Nodup) : ((alUpdate k v l).map Prod.fst).Nodup := by
  induction l with
  | nil => simp [alUpdate]
  | cons p rest ih =>
    simp only [List.map_cons, List.nodup_cons] at h
    by_cases hp : p.1 = k
    · simp only [alUpdate, if_pos hp, List.map_cons, List.nodup_cons]
      exact ⟨hp ▸ h.1, h.2⟩
    · simp only [alUpdate, if_neg hp, List.map_cons, List.nodup_cons]
      refine ⟨fun hmem => ?_, ih h.2⟩
      rcases (alUpdate_keys_mem k p.1 v rest).mp hmem with h1 | h1
      · exact h.1 h1
      · exact hp h1

theorem alUpdate_mem {α β : Type} [DecidableEq α] {e : α × β} {k : α} {v : β}
    {l : List (α × β)} (h : e ∈ alUpdate k v l) : e ∈ l ∨ e = (k, v) := by
  induction l with
  | nil => simpa [alUpdate] using h
  | cons p rest ih =>
    by_cases hp : p.1 = k
    · simp only [alUpdate, if_pos hp, List.mem_cons] at h
      rcases h with h | h
      · exact Or.inr h
      · exact Or.inl (List.mem_cons_of_mem p h)
    · simp only [alUpdate, if_neg hp, List.mem_cons] at h
      rcases h with h | h
      · exact Or.inl (h ▸ List.mem_cons_self p rest)
      · rcases ih h with h1 | h1
        · exact Or.inl (List.mem_cons_of_mem p h1)
        · exact Or.inr h1

theorem alAdd_lookup (k : String) (v : Int) (l : List (String × Int)) (k' : String) :
    (alLookup k' (alAdd k v l)).getD 0
      = (alLookup k' l).getD 0 + (if k' = k then v else 0) := by
  induction l with
  | nil =>
    by_cases h : k' = k
    · simp [alAdd, alLookup, h]
    · have h1 : ¬ k = k' := fun hh => h hh.symm
      simp [alAdd, alLookup, h, h1]
  | cons p rest ih =>
    by_cases hp : p.1 = k
    · by_cases hp' : p.1 = k'
      · have hk : k' = k := hp'.symm.trans hp
        simp [alAdd, alLookup, hp, hp', hk]
      · have hk : ¬ k' = k := fun hh => hp' (hp.trans hh.symm)
        have hk2 : ¬ k = k' := fun hh => hk hh.symm
        simp [alAdd, alLookup, hp, hp', hk, hk2]
    · by_cases hp' : p.1 = k'
      · have hk : ¬ k' = k := fun hh => hp (hp'.trans hh)
        simp [alAdd, alLookup, hp, hp', hk]
      · simp [alAdd, alLookup, hp, hp', ih]

/-! ### `ddInsert`/`dayItems` lemmas -/

theorem ddInsert_dayItems (day : Nat) (mid : String) (dt : Int) (dd : DaysDT) (day' : Nat) :
    dayItems (ddInsert day mid dt dd) day'
      = if day' = day then alUpdate mid dt (dayItems dd day) else dayItems dd day' := by
  induction dd with
  | nil =>
    by_cases h : day' = day
    · simp [ddInsert, dayItems, alLookup, alUpdate, h]
    · have h1 : ¬ day = day' := fun hh => h hh.symm
      simp [ddInsert, dayItems, alLookup, alUpdate, h, h1]
  | cons p rest ih =>
    by_cases hp : p.1 = day
    · by_cases hp' : p.1 = day'
      · have hd : day' = day := hp'.symm.trans hp
        simp [ddInsert, dayItems, alLookup, hp, hp', hd]
      · have hd : ¬ day' = day := fun hh => hp' (hp.trans hh.symm)
        have hd2 : ¬ day = day' := fun hh => hd hh.symm
        simp [ddInsert, dayItems, alLookup, hp, hp', hd, hd2]
    · by_cases hp' : p.1 = day'
      · have hd : ¬ day' = day := fun hh => hp (hp'.trans hh)
        simp [ddInsert, dayItems, alLookup, hp, hp', hd]
      · have hLHS : dayItems (ddInsert day mid dt (p :: rest)) day'
            = dayItems (ddInsert day mid dt rest) day' := by
          simp [ddInsert, dayItems, alLookup, hp, hp']
        have e1 : dayItems (p :: rest) day = dayItems rest day := by
          simp [dayItems, alLookup, hp]
        have e2 : dayItems (p :: rest) day' = dayItems rest day' := by
          simp [dayItems, alLookup, hp']
        rw [hLHS, ih, e1, e2]

/-! ### Day-loop lemmas (inner loop of `parse_data`) -/

theorem foldDays_sum_dt (mid : String) (cdl : List (Nat × DayData)) (acc : PDayAcc) :
    (cdl.foldl (pDayStep mid) acc).sum_dt
      = acc.sum_dt + ((cdl.filter (fun p => p.2.star2.isSome)).map
          (fun p => star2def p.2 - p.2.star1)).sum := by
  induction cdl generalizing acc with
  | nil => simp
  | cons p rest ih =>
    simp only [List.foldl_cons, ih, List.filter_cons]
    by_cases h : p.2.star2.isSome
    · simp only [pDayStep]
      simp only [h, if_true, if_pos, List.map_cons, List.sum_cons]
      omega
    · simp only [pDayStep]
      simp [h]

theorem foldDays_count (mid : String) (cdl : List (Nat × DayData)) (acc : PDayAcc) :
    (cdl.foldl (pDayStep mid) acc).count
      = acc.count + (cdl.filter (fun p => p.2.star2.isSome)).length := by
  induction cdl generalizing acc with
  | nil => simp
  | cons p rest ih =>
    simp only [List.foldl_cons, ih, List.filter_cons]
    by_cases h : p.2.star2.isSome
    · simp only [pDayStep]
      simp only [h, if_true, if_pos, List.length_cons]
      omega
    · simp only [pDayStep]
      simp [h]

theorem foldDays_days_eq (mid : String) (cdl : List (Nat × DayData)) (acc : PDayAcc) :
    (cdl.foldl (pDayStep mid) acc).days
      = cdl.foldl
          (fun ds p => alUpdate p.1 ⟨star2def p.2 - p.2.star1, p.2.star1, star2def p.2⟩ ds)
          acc.days := by
  induction cdl generalizing acc with
  | nil => rfl
  | cons p rest ih => simp only [List.foldl_cons, ih, pDayStep]

theorem foldDays_days_lookup_notmem (mid : String) (cdl : List (Nat × DayData)) (acc : PDayAcc)
    (day : Nat) (h : day ∉ cdl.map Prod.fst) :
    alLookup day (cdl.foldl (pDayStep mid) acc).days = alLookup day acc.days := by
  induction cdl generalizing acc with
  | nil => rfl
  | cons p rest ih =>
    simp only [List.map_cons, List.mem_cons] at h
    push_neg at h
    simp only [List.foldl_cons, ih _ h.2, pDayStep]
    exact alUpdate_lookup_ne h.1 _ _

theorem foldDays_days_lookup (mid : String) (cdl : List (Nat × DayData)) (acc : PDayAcc)
    (day : Nat) (dd0 : DayData) (hnd : (cdl.map Prod.fst).Nodup)
    (hmem : (day, dd0) ∈ cdl) :
    alLookup day (cdl.foldl (pDayStep mid) acc).days
      = some ⟨star2def dd0 - dd0.star1, dd0.star1, star2def dd0⟩ := by
  induction cdl generalizing acc with
  | nil => cases hmem
  | cons p rest ih =>
    simp only [List.map_cons, List.nodup_cons] at hnd
    rcases List.mem_cons.mp hmem with h | h
    · have hd : p.1 = day := by rw [← h]
      have hnotm : day ∉ rest.map Prod.fst := hd ▸ hnd.1
      rw [List.foldl_cons, foldDays_days_lookup_notmem mid rest _ day hnotm]
      simp only [pDayStep]
      rw [← h]
      exact alUpdate_lookup_self _ _ _
    · exact ih _ hnd.2 h

theorem foldDays_ddt_notmem (mid : String) (cdl : List (Nat × DayData)) (acc : PDayAcc)
    (day : Nat) (h : day ∉ cdl.map Prod.fst) (mid' : String) :
    alLookup mid' (dayItems (cdl.foldl (pDayStep mid) acc).days_dt day)
      = alLookup mid' (dayItems acc.days_dt day) := by
  induction cdl generalizing acc with
  | nil => rfl
  | cons p rest ih =>
    simp only [List.map_cons, List.mem_cons] at h
    push_neg at h
    rw [List.foldl_cons, ih _ h.2]
    simp only [pDayStep]
    rw [ddInsert_dayItems, if_neg h.1]

theorem foldDays_ddt_self (mid : String) (cdl : List (Nat × DayData)) (acc : PDayAcc)
    (day : Nat) (dd0 : DayData) (hnd : (cdl.map Prod.fst).Nodup)
    (hmem : (day, dd0) ∈ cdl) :
    alLookup mid (dayItems (cdl.foldl (pDayStep mid) acc).days_dt day)
      = some (star2def dd0 - dd0.star1) := by
  induction cdl generalizing acc with
  | nil => cases hmem
  | cons p rest ih =>
    simp only [List.map_cons, List.nodup_cons] at hnd
    rcases List.mem_cons.mp hmem with h | h
    · have hd : p.1 = day := by rw [← h]
      have hnotm : day ∉ rest.map Prod.fst := hd ▸ hnd.1
      rw [List.foldl_cons, foldDays_ddt_notmem mid rest _ day hnotm]
      simp only [pDayStep]
      rw [ddInsert_dayItems, if_pos hd.symm, ← h]
      exact alUpdate_lookup_self _ _ _
    · exact ih _ hnd.2 h

theorem foldDays_ddt_other (mid' : String) (cdl : List (Nat × DayData)) (acc : PDayAcc)
    (day : Nat) (mid : String) (h : mid' ≠ mid) :
    alLookup mid (dayItems (cdl.foldl (pDayStep mid') acc).days_dt day)
      = alLookup mid (dayItems acc.days_dt day) := by
  induction cdl generalizing acc with
  | nil => rfl
  | cons p rest ih =>
    rw [List.foldl_cons, ih]
    simp only [pDayStep]
    rw [ddInsert_dayItems]
    by_cases hd : day = p.1
    · rw [if_pos hd, alUpdate_lookup_ne (Ne.symm h), hd]
    · rw [if_neg hd]

theorem foldDays_ddt_keys_mem (mid : String) (cdl : List (Nat × DayData)) (acc : PDayAcc)
    (day : Nat) {k : String}
    (h : k ∈ (dayItems (cdl.foldl (pDayStep mid) acc).days_dt day).map Prod.fst) :
    k ∈ (dayItems acc.days_dt day).map Prod.fst ∨ k = mid := by
  induction cdl generalizing acc with
  | nil => exact Or.inl h
  | cons p rest ih =>
    rw [List.foldl_cons] at h
    rcases ih _ h with h1 | h1
    · simp only [pDayStep, ddInsert_dayItems] at h1
      by_cases hd : day = p.1
      · rw [if_pos hd] at h1
        rcases (alUpdate_keys_mem mid k _ _).mp h1 with h2 | h2
        · exact Or.inl (hd ▸ h2)
        · exact Or.inr h2
      · rw [if_neg hd] at h1
        exact Or.inl h1
    · exact Or.inr h1

theorem foldDays_ddt_nodup (mid : String) (cdl : List (Nat × DayData)) (acc : PDayAcc)
    (day : Nat) (h : ((dayItems acc.days_dt day).map Prod.fst).Nodup) :
    ((dayItems (cdl.foldl (pDayStep mid) acc).days_dt day).map Prod.fst).Nodup := by
  induction cdl generalizing acc with
  | nil => exact h
  | cons p rest ih =>
    rw [List.foldl_cons]
    refine ih _ ?_
    simp only [pDayStep, ddInsert_dayItems]
    by_cases hd : day = p.1
    · rw [if_pos hd, ← hd]
      exact alUpdate_keys_nodup _ _ _ h
    · rwa [if_neg hd]

/-! ### Member-loop lemmas (outer loop of `parse_data`) -/

theorem pMemberStep_members (st : PAcc) (p : String × RawMember) :
    (pMemberStep st p).members = alUpdate p.1 (mkMember p.1 p.2) st.members := by
  have hsum :
      (p.2.completion_day_level.foldl (pDayStep p.1) ⟨st.last_day, 0, 0, [], st.days_dt⟩).sum_dt
        = (p.2.completion_day_level.foldl (pDayStep p.1) ⟨1, 0, 0, [], []⟩).sum_dt := by
    rw [foldDays_sum_dt, foldDays_sum_dt]
  have hcount :
      (p.2.completion_day_level.foldl (pDayStep p.1) ⟨st.last_day, 0, 0, [], st.days_dt⟩).count
        = (p.2.completion_day_level.foldl (pDayStep p.1) ⟨1, 0, 0, [], []⟩).count := by
    rw [foldDays_count, foldDays_count]
  have hdays :
      (p.2.completion_day_level.foldl (pDayStep p.1) ⟨st.last_day, 0, 0, [], st.days_dt⟩).days
        = (p.2.completion_day_level.foldl (pDayStep p.1) ⟨1, 0, 0, [], []⟩).days := by
    rw [foldDays_days_eq, foldDays_days_eq]
  simp only [pMemberStep, mkMember]
  rw [hsum, hcount, hdays]

theorem foldMembers_entries (ms : List (String × RawMember)) (st : PAcc) {e : String × Member}
    (h : e ∈ (ms.foldl pMemberStep st).members) :
    e ∈ st.members ∨ ∃ q ∈ ms, e = (q.1, mkMember q.1 q.2) := by
  induction ms generalizing st with
  | nil => exact Or.inl h
  | cons p rest ih =>
    rw [List.foldl_cons] at h
    rcases ih _ h with h1 | h1
    · rw [pMemberStep_members] at h1
      rcases alUpdate_mem h1 with h2 | h2
      · exact Or.inl h2
      · exact Or.inr ⟨p, List.mem_cons_self p rest, h2⟩
    · rcases h1 with ⟨q, hq, he⟩
      exact Or.inr ⟨q, List.mem_cons_of_mem p hq, he⟩

theorem foldMembers_lookup_notmem (ms : List (String × RawMember)) (st : PAcc) (mid : String)
    (h : mid ∉ ms.map Prod.fst) :
    alLookup mid (ms.foldl pMemberStep st).members = alLookup mid st.members := by
  induction ms generalizing st with
  | nil => rfl
  | cons p rest ih =>
    simp only [List.map_cons, List.mem_cons] at h
    push_neg at h
    rw [List.foldl_cons, ih _ h.2, pMemberStep_members]
    exact alUpdate_lookup_ne h.1 _ _

theorem foldMembers_lookup (ms : List (String × RawMember)) (st : PAcc) (mid : String)
    (md : RawMember) (hnd : (ms.map Prod.fst).Nodup) (hmem : (mid, md) ∈ ms) :
    alLookup mid (ms.foldl pMemberStep st).members = some (mkMember mid md) := by
  induction ms generalizing st with
  | nil => cases hmem
  | cons p rest ih =>
    simp only [List.map_cons, List.nodup_cons] at hnd
    rcases List.mem_cons.mp hmem with h | h
    · have hd : p.1 = mid := by rw [← h]
      have hnotm : mid ∉ rest.map Prod.fst := hd ▸ hnd.1
      rw [List.foldl_cons, foldMembers_lookup_notmem rest _ mid hnotm, pMemberStep_members, ← h]
      exact alUpdate_lookup_self _ _ _
    · exact ih _ hnd.2 h

theorem foldMembers_ddt_notmem (ms : List (String × RawMember)) (st : PAcc) (mid : String)
    (day : Nat) (h : mid ∉ ms.map Prod.fst) :
    alLookup mid (dayItems (ms.foldl pMemberStep st).days_dt day)
      = alLookup mid (dayItems st.days_dt day) := by
  induction ms generalizing st with
  | nil => rfl
  | cons p rest ih =>
    simp only [List.map_cons, List.mem_cons] at h
    push_neg at h
    rw [List.foldl_cons, ih _ h.2]
    simp only [pMemberStep]
    exact foldDays_ddt_other p.1 _ _ day mid (Ne.symm h.1)

theorem foldMembers_ddt_lookup (ms : List (String × RawMember)) (st : PAcc) (mid : String)
    (md : RawMember) (day : Nat) (dd0 : DayData)
    (hndm : (ms.map Prod.fst).Nodup) (hmem : (mid, md) ∈ ms)
    (hndd : (md.completion_day_level.map Prod.fst).Nodup)
    (hday : (day, dd0) ∈ md.completion_day_level) :
    alLookup mid (dayItems (ms.foldl pMemberStep st).days_dt day)
      = some (star2def dd0 - dd0.star1) := by
  induction ms generalizing st with
  | nil => cases hmem
  | cons p rest ih =>
    simp only [List.map_cons, List.nodup_cons] at hndm
    rcases List.mem_cons.mp hmem with h | h
    · have hd : p.1 = mid := by rw [← h]
      have hnotm : mid ∉ rest.map Prod.fst := hd ▸ hndm.1
      rw [List.foldl_cons, foldMembers_ddt_notmem rest _ mid day hnotm]
      simp only [pMemberStep]
      rw [← h]
      exact foldDays_ddt_self (mid, md).1 _ _ day dd0 hndd hday
    · exact ih _ hndm.2 h

theorem foldMembers_ddt_nodup (ms : List (String × RawMember)) (st : PAcc) (day : Nat)
    (h : ((dayItems st.days_dt day).map Prod.fst).Nodup) :
    ((dayItems (ms.foldl pMemberStep st).days_dt day).map Prod.fst).Nodup := by
  induction ms generalizing st with
  | nil => exact h
  | cons p rest ih =>
    rw [List.foldl_cons]
    refine ih _ ?_
    simp only [pMemberStep]
    exact foldDays_ddt_nodup p.1 _ _ day h

theorem foldMembers_ddt_sub (ms : List (String × RawMember)) (st : PAcc) (day : Nat)
    (h : ∀ k, k ∈ (dayItems st.days_dt day).map Prod.fst → k ∈ st.members.map Prod.fst) :
    ∀ k, k ∈ (dayItems (ms.foldl pMemberStep st).days_dt day).map Prod.fst
      → k ∈ (ms.foldl pMemberStep st).members.map Prod.fst := by
  induction ms generalizing st with
  | nil => exact h
  | cons p rest ih =>
    rw [List.foldl_cons]
    refine ih _ ?_
    intro k hk
    have h1 : k ∈ (dayItems st.days_dt day).map Prod.fst ∨ k = p.1 := by
      revert hk
      simp only [pMemberStep]
      exact fun hk => foldDays_ddt_keys_mem p.1 _ _ day hk
    rw [pMemberStep_members]
    rcases h1 with h1 | h1
    · exact (alUpdate_keys_mem _ _ _ _).mpr (Or.inl (h k h1))
    · exact (alUpdate_keys_mem _ _ _ _).mpr (Or.inr h1)

/-! ### Parse-level invariants -/

theorem parse_members_lookup (raw : RawData) (mid : String) (md : RawMember)
    (hnd : (raw.members.map Prod.fst).Nodup) (hmem : (mid, md) ∈ raw.members) :
    alLookup mid (parse_data raw).members = some (mkMember mid md) := by
  simp only [parse_data]
  exact foldMembers_lookup _ _ _ _ hnd hmem

theorem parse_members_entries (raw : RawData) {e : String × Member}
    (h : e ∈ (parse_data raw).members) :
    ∃ q ∈ raw.members, e = (q.1, mkMember q.1 q.2) := by
  simp only [parse_data] at h
  rcases foldMembers_entries _ _ h with h1 | h1
  · cases h1
  · exact h1

theorem parse_ddt_lookup (raw : RawData) (mid : String) (md : RawMember) (day : Nat)
    (dd0 : DayData) (hnd : (raw.members.map Prod.fst).Nodup) (hmem : (mid, md) ∈ raw.members)
    (hndd : (md.completion_day_level.map Prod.fst).Nodup)
    (hday : (day, dd0) ∈ md.completion_day_level) :
    alLookup mid (dayItems (parse_data raw).days_dt day) = some (star2def dd0 - dd0.star1) := by
  simp only [parse_data]
  exact foldMembers_ddt_lookup _ _ _ _ _ _ hnd hmem hndd hday

theorem parse_ddt_nodup (raw : RawData) (day : Nat) :
    ((dayItems (parse_data raw).days_dt day).map Prod.fst).Nodup := by
  simp only [parse_data]
  exact foldMembers_ddt_nodup _ _ day (by simp [dayItems, alLookup])

theorem parse_ddt_sub (raw : RawData) (day : Nat) :
    ∀ k, k ∈ (dayItems (parse_data raw).days_dt day).map Prod.fst
      → k ∈ (parse_data raw).members.map Prod.fst := by
  simp only [parse_data]
  refine foldMembers_ddt_sub _ _ day ?_
  intro k hk
  simp [dayItems, alLookup] at hk

/-! ### Sorting lemmas: stability of the delta-time sort -/

theorem orderedInsert_filter_dt (x : String × Int) (s : List (String × Int)) (v : Int) :
    (List.orderedInsert dtLE x s).filter (fun p => decide (p.2 = v))
      = if x.2 = v then x :: s.filter (fun p => decide (p.2 = v))
        else s.filter (fun p => decide (p.2 = v)) := by
  induction s with
  | nil => by_cases h : x.2 = v <;> simp [List.orderedInsert, h]
  | cons y t ih =>
    by_cases hle : dtLE x y
    · simp only [List.orderedInsert, if_pos hle, List.filter_cons]
      by_cases hx : x.2 = v <;> simp [hx]
    · simp only [List.orderedInsert, if_neg hle, List.filter_cons, ih]
      have hxy : ¬ x.2 ≤ y.2 := hle
      by_cases hx : x.2 = v
      · have hyv : ¬ (y.2 = v) := by
          intro hyv
          exact hxy (le_of_eq (hx.trans hyv.symm))
        simp [hx, hyv]
      · by_cases hyv : y.2 = v <;> simp [hx, hyv]

theorem insertionSort_filter_dt (l : List (String × Int)) (v : Int) :
    (List.insertionSort dtLE l).filter (fun p => decide (p.2 = v))
      = l.filter (fun p => decide (p.2 = v)) := by
  induction l with
  | nil => rfl
  | cons x t ih =>
    simp only [List.insertionSort, orderedInsert_filter_dt, ih, List.filter_cons]
    by_cases hx : x.2 = v <;> simp [hx]

theorem sort_keys_nodup (l : List (String × Int)) (h : (l.map Prod.fst).Nodup) :
    ((List.insertionSort dtLE l).map Prod.fst).Nodup :=
  (((List.perm_insertionSort dtLE l).map Prod.fst).nodup_iff).mpr h

theorem alLookup_eq_none {α β : Type} [DecidableEq α] (k : α) (l : List (α × β)) :
    alLookup k l = none ↔ k ∉ l.map Prod.fst := by
  induction l with
  | nil => simp [alLookup]
  | cons p rest ih =>
    by_cases h : p.1 = k
    · simp [alLookup, h]
    · have h2 : ¬ k = p.1 := fun hh => h hh.symm
      simp only [alLookup, if_neg h, List.map_cons, List.mem_cons]
      rw [ih]
      constructor
      · intro hn hc
        rcases hc with hc | hc
        · exact h2 hc
        · exact hn hc
      · exact fun hn hc => hn (Or.inr hc)

/-! ### Ranked-list size and the points guard (for parsed snapshots) -/

theorem parse_ranked_le (raw : RawData) (day : Nat) :
    ((parse_data raw).ranked_days_dt day).length ≤ (parse_data raw).members.length := by
  have hlen : ((parse_data raw).ranked_days_dt day).length
      = (dayItems (parse_data raw).days_dt day).length :=
    (List.perm_insertionSort dtLE _).length_eq
  have hsub : (dayItems (parse_data raw).days_dt day).map Prod.fst
      ⊆ (parse_data raw).members.map Prod.fst :=
    fun k hk => parse_ddt_sub raw day k hk
  have h2 := (List.subperm_of_subset (parse_ddt_nodup raw day) hsub).length_le
  simp only [List.length_map] at h2
  rw [hlen]
  exact h2

theorem parse_guard_filter (raw : RawData) (day : Nat) :
    (((parse_data raw).ranked_days_dt day).enum.filter
        (fun p => decide (0 < ((parse_data raw).members.length : Int) - (p.1 : Int))))
      = ((parse_data raw).ranked_days_dt day).enum := by
  apply List.filter_eq_self.mpr
  intro p hp
  have hlt : p.1 < ((parse_data raw).ranked_days_dt day).length := by
    have h1 : p.1 ∈ List.range ((parse_data raw).ranked_days_dt day).length := by
      rw [← List.enum_map_fst]
      exact List.mem_map_of_mem Prod.fst hp
    exact List.mem_range.mp h1
  have hle := parse_ranked_le raw day
  simp only [decide_eq_true_eq]
  omega

theorem parse_points_formula (raw : RawData) (day : Nat) :
    display_ranking_points (parse_data raw) day
      = (List.range ((parse_data raw).ranked_days_dt day).length).map
          (fun (r : Nat) => ((parse_data raw).members.length : Int) - (r : Int)) := by
  unfold display_ranking_points
  rw [parse_guard_filter, ← List.enum_map_fst, List.map_map]
  rfl

/-! ### Total-points accumulation lemmas -/

theorem dayFold_lookup (M : Int) (l : List (String × Int)) (n : Nat)
    (tp : List (String × Int)) (mid : String) :
    (alLookup mid ((l.enumFrom n).foldl
        (fun tp p => alAdd p.2.1 (M - (p.1 : Int)) tp) tp)).getD 0
      = (alLookup mid tp).getD 0
        + (((l.enumFrom n).filter (fun p => decide (p.2.1 = mid))).map
            (fun p => M - (p.1 : Int))).sum := by
  induction l generalizing n tp with
  | nil => simp
  | cons x t ih =>
    rw [show (x :: t).enumFrom n = (n, x) :: t.enumFrom (n + 1) from rfl]
    rw [List.foldl_cons, ih, alAdd_lookup]
    by_cases h : x.1 = mid
    · have hfilt : ((n, x) :: t.enumFrom (n + 1)).filter (fun p => decide (p.2.1 = mid))
          = (n, x) :: (t.enumFrom (n + 1)).filter (fun p => decide (p.2.1 = mid)) := by
        simp [h]
      rw [hfilt, List.map_cons, List.sum_cons, if_pos (show mid = (n, x).2.1 from h.symm)]
      omega
    · have hfilt : ((n, x) :: t.enumFrom (n + 1)).filter (fun p => decide (p.2.1 = mid))
          = (t.enumFrom (n + 1)).filter (fun p => decide (p.2.1 = mid)) := by
        simp [h]
      rw [hfilt, if_neg (show ¬ mid = (n, x).2.1 from fun hh => h hh.symm)]
      omega

theorem enum_filter_sum_of_nodup (M : Int) (l : List (String × Int)) (mid : String)
    (hnd : (l.map Prod.fst).Nodup) (n : Nat) :
    (((l.enumFrom n).filter (fun p => decide (p.2.1 = mid))).map
        (fun p => M - (p.1 : Int))).sum
      = match (l.enumFrom n).find? (fun p => decide (p.2.1 = mid)) with
        | some p => M - (p.1 : Int)
        | none => 0 := by
  induction l generalizing n with
  | nil => simp
  | cons x t ih =>
    rw [show (x :: t).enumFrom n = (n, x) :: t.enumFrom (n + 1) from rfl]
    simp only [List.map_cons, List.nodup_cons] at hnd
    by_cases h : x.1 = mid
    · have hempty : (t.enumFrom (n + 1)).filter (fun p => decide (p.2.1 = mid)) = [] := by
        apply List.filter_eq_nil_iff.mpr
        intro p hp
        have hp2 : p.2 ∈ t := by
          have hmm := List.mem_map_of_mem Prod.snd hp
          rwa [List.enumFrom_map_snd] at hmm
        have hp3 : p.2.1 ∈ t.map Prod.fst := List.mem_map_of_mem Prod.fst hp2
        simp only [decide_eq_true_eq]
        intro hc
        exact hnd.1 (by rwa [hc, ← h] at hp3)
      have hfilt : ((n, x) :: t.enumFrom (n + 1)).filter (fun p => decide (p.2.1 = mid))
          = (n, x) :: (t.enumFrom (n + 1)).filter (fun p => decide (p.2.1 = mid)) := by
        simp [h]
      have hfind : ((n, x) :: t.enumFrom (n + 1)).find? (fun p => decide (p.2.1 = mid))
          = some (n, x) := by
        simp [h]
      rw [hfilt, hempty, hfind]
      simp
    · have hfilt : ((n, x) :: t.enumFrom (n + 1)).filter (fun p => decide (p.2.1 = mid))
          = (t.enumFrom (n + 1)).filter (fun p => decide (p.2.1 = mid)) := by
        simp [h]
      have hfind : ((n, x) :: t.enumFrom (n + 1)).find? (fun p => decide (p.2.1 = mid))
          = (t.enumFrom (n + 1)).find? (fun p => decide (p.2.1 = mid)) := by
        simp [h]
      rw [hfilt, hfind]
      exact ih hnd.2 (n + 1)

theorem dayFold_points (data : AOCData) (day : Nat) (tp : List (String × Int)) (mid : String)
    (hnd : ((dayItems data.days_dt day).map Prod.fst).Nodup) :
    (alLookup mid ((List.insertionSort dtLE (dayItems data.days_dt day)).enum.foldl
        (fun tp p => alAdd p.2.1 ((data.members.length : Int) - (p.1 : Int)) tp) tp)).getD 0
      = (alLookup mid tp).getD 0 + member_day_points data day mid := by
  have hnds := sort_keys_nodup _ hnd
  rw [show (List.insertionSort dtLE (dayItems data.days_dt day)).enum
      = (List.insertionSort dtLE (dayItems data.days_dt day)).enumFrom 0 from rfl]
  rw [dayFold_lookup, enum_filter_sum_of_nodup _ _ _ hnds 0]
  rfl

theorem rangeFold_points (data : AOCData) (days : List Nat) (tp : List (String × Int))
    (mid : String) (hnd : ∀ day, ((dayItems data.days_dt day).map Prod.fst).Nodup) :
    (alLookup mid (days.foldl
        (fun tp i =>
          (List.insertionSort dtLE (dayItems data.days_dt (i + 1))).enum.foldl
            (fun tp p => alAdd p.2.1 ((data.members.length : Int) - (p.1 : Int)) tp) tp)
        tp)).getD 0
      = (alLookup mid tp).getD 0
        + (days.map (fun i => member_day_points data (i + 1) mid)).sum := by
  induction days generalizing tp with
  | nil => simp
  | cons i rest ih =>
    rw [List.foldl_cons, ih, dayFold_points data (i + 1) tp mid (hnd (i + 1)),
        List.map_cons, List.sum_cons]
    omega

theorem display_total_lookup (data : AOCData) (mid : String)
    (hnd : ∀ day, ((dayItems data.days_dt day).map Prod.fst).Nodup) :
    (alLookup mid (display_total_points data)).getD 0
      = ((List.range data.last_day).map (fun i => member_day_points data (i + 1) mid)).sum := by
  unfold display_total_points
  rw [rangeFold_points data _ _ mid hnd]
  simp [alLookup]

/-! ### `format_dt` versus the specified decomposition -/

theorem format_dt_cases (dt : Int) (h0 : 0 ≤ dt) :
    (86400 < dt → format_dt dt = ">24h")
    ∧ (dt < 86400 → format_dt dt = format_dt_spec dt)
    ∧ (dt = 86400 → format_dt dt = "24h") := by
  refine ⟨?_, ?_, ?_⟩
  · intro h
    unfold format_dt
    rw [if_pos (show dt > 60 * 60 * 24 by omega)]
  · intro h
    have hgt : ¬ (dt > 60 * 60 * 24) := by omega
    unfold format_dt format_dt_spec
    rw [if_neg hgt]
    dsimp only
    have hm : ((dt - dt % 60) % (60 * 60)) / 60 = dt % 3600 / 60 := by omega
    rw [hm]
    have hh : ((dt - dt % 60 - (dt % 3600 / 60) * 60) % (60 * 60 * 60)) / 3600
        = dt % 86400 / 3600 := by omega
    rw [hh]
    have hd : ((dt - dt % 60 - (dt % 3600 / 60) * 60 - (dt % 86400 / 3600) * 60)
          % (60 * 60 * 60 * 24)) / (3600 * 24)
        = dt / 86400 := by
      have e1 : dt % 3600 / 60 = dt / 60 - 60 * (dt / 3600) := by omega
      have e2 : dt % 86400 / 3600 = dt / 3600 := by omega
      have e3 : dt % 60 = dt - 60 * (dt / 60) := by omega
      rw [e1, e2, e3]
      have e6 : dt - (dt - 60 * (dt / 60)) - (dt / 60 - 60 * (dt / 3600)) * 60
            - dt / 3600 * 60
          = 3540 * (dt / 3600) := by ring
      rw [e6]
      have e8 : dt / 86400 = 0 := by omega
      rw [e8]
      have hq : 0 ≤ dt / 3600 ∧ dt / 3600 ≤ 23 := by omega
      generalize dt / 3600 = q at hq
      rw [show (60 * 60 * 60 * 24 : Int) = 5184000 from by norm_num,
          show (3600 * 24 : Int) = 86400 from by norm_num]
      have hmod : 3540 * q % 5184000 = 3540 * q := Int.emod_eq_of_lt (by omega) (by omega)
      rw [hmod]
      exact Int.ediv_eq_zero_of_lt (by omega) (by omega)
    rw [hd]
  · intro h
    subst h
    decide

/-! ### `mkMember` field lemmas -/

theorem mkMember_sum_dt (mid : String) (md : RawMember) :
    (mkMember mid md).sum_dt = bothStarSum md := by
  unfold mkMember bothStarSum bothStarDays
  dsimp only
  rw [foldDays_sum_dt]
  simp

theorem mkMember_count_aux (mid : String) (md : RawMember) :
    (md.completion_day_level.foldl (pDayStep mid) ⟨1, 0, 0, [], []⟩).count
      = bothStarCount md := by
  unfold bothStarCount bothStarDays
  rw [foldDays_count]
  simp

theorem mkMember_avg_dt (mid : String) (md : RawMember) :
    (mkMember mid md).avg_dt
      = if bothStarCount md = 0 then -1
        else (bothStarSum md : Rat) / (bothStarCount md : Rat) := by
  unfold mkMember
  dsimp only
  rw [mkMember_count_aux]
  have hs : (md.completion_day_level.foldl (pDayStep mid) ⟨1, 0, 0, [], []⟩).sum_dt
      = bothStarSum md := mkMember_sum_dt mid md
  rw [hs]

theorem mkMember_days_lookup (mid : String) (md : RawMember) (day : Nat) (dd0 : DayData)
    (hndd : (md.completion_day_level.map Prod.fst).Nodup)
    (hday : (day, dd0) ∈ md.completion_day_level) :
    alLookup day (mkMember mid md).days
      = some ⟨star2def dd0 - dd0.star1, dd0.star1, star2def dd0⟩ := by
  unfold mkMember
  dsimp only
  exact foldDays_days_lookup mid _ _ day dd0 hndd hday

/-! ### Claim theorems -/

/-- Claim C4: for every day, the per-day ranking `ranked_days_dt` is a
permutation of the day's (member id, delta time) pairs, sorted in ascending
order of delta time, and stable: for every delta value the entries carrying
it appear in exactly their original input order. -/
theorem claim_C4 (data : AOCData) (day : Nat) :
    (data.ranked_days_dt day).Perm (dayItems data.days_dt day)
    ∧ (data.ranked_days_dt day).Sorted dtLE
    ∧ ∀ v : Int, (data.ranked_days_dt day).filter (fun p => decide (p.2 = v))
        = (dayItems data.days_dt day).filter (fun p => decide (p.2 = v)) :=
  ⟨List.perm_insertionSort dtLE _, List.sorted_insertionSort dtLE _,
   fun v => insertionSort_filter_dt _ v⟩

/-- Claim C9: for every parsed snapshot and day, every member id in the
day's delta-time mapping is a key of the members map, the ranked list has at
most `len(members)` entries, and the `len(members) - rank > 0` guard of
`display_ranking` never removes a row (the filtered enumeration is the full
enumeration, and the rows are exactly one row per ranked entry). -/
theorem claim_C9 (raw : RawData) (day : Nat) :
    ((dayItems (parse_data raw).days_dt day).map Prod.fst
        ⊆ (parse_data raw).members.map Prod.fst)
    ∧ ((parse_data raw).ranked_days_dt day).length ≤ (parse_data raw).members.length
    ∧ (((parse_data raw).ranked_days_dt day).enum.filter
        (fun p => decide (0 < ((parse_data raw).members.length : Int) - (p.1 : Int))))
      = ((parse_data raw).ranked_days_dt day).enum
    ∧ (display_ranking_rows (parse_data raw) day).length
      = ((parse_data raw).ranked_days_dt day).length :=
  ⟨fun k hk => parse_ddt_sub raw day k hk, parse_ranked_le raw day, parse_guard_filter raw day,
   by
    unfold display_ranking_rows
    rw [parse_guard_filter, List.length_map, List.enum_length]⟩

/-- Claim C1, counterexample: in `c1raw` exactly one member reports on day 1
(so the claim predicts the points set `{1}`), but the code awards
`len(data.members) - rank = 2` points. -/
theorem claim_C1_counterexample :
    (dayItems (parse_data c1raw).days_dt 1).length = 1
    ∧ display_ranking_points (parse_data c1raw) 1 = [2]
    ∧ display_ranking_points (parse_data c1raw) 1 ≠ [1] := by decide

/-- Claim C1 (amended): the points column of a day's ranking table is
`[M - 0, M - 1, ..., M - (L-1)]` where `M` is the total number of members in
the snapshot and `L` the number of members reporting that day; only when all
members report (`L = M`) is this the claimed `{N, N-1, ..., 1}`. -/
theorem claim_C1_amended (raw : RawData) (day : Nat) :
    display_ranking_points (parse_data raw) day
      = (List.range ((parse_data raw).ranked_days_dt day).length).map
          (fun (r : Nat) => ((parse_data raw).members.length : Int) - (r : Int)) :=
  parse_points_formula raw day

/-- Claim C10: `display_ranking` recomputes the last day as a maximum over
the keys of `days_dt`, which has no value exactly when `days_dt` is empty;
yet `parse_data` on an input whose members have no completions succeeds with
`last_day = 1`, a nonempty members map and an empty `days_dt`, on which the
ranking view is undefined. -/
theorem claim_C10 :
    (∀ data : AOCData, display_ranking_last_day data = none ↔ data.days_dt = [])
    ∧ (parse_data c10raw).last_day = 1
    ∧ (parse_data c10raw).members ≠ []
    ∧ (parse_data c10raw).days_dt = []
    ∧ display_ranking_last_day (parse_data c10raw) = none := by
  refine ⟨?_, by decide, by decide, by decide, by decide⟩
  intro data
  unfold display_ranking_last_day
  rw [List.max?_eq_none_iff]
  constructor
  · intro h
    cases hd : data.days_dt with
    | nil => rfl
    | cons p rest => rw [hd] at h; cases h
  · intro h
    rw [h]
    rfl

/-- Claim C6: when an update is requested and the cache file was modified
less than 15 minutes ago, `update_if_possible` returns success without an
HTTP request or a write, and `run` proceeds to parse the existing cache. -/
theorem claim_C6 (env : RunEnv) (m : Int)
    (hm : env.fetch.cacheMtime = some m)
    (hfresh : env.fetch.now - m < 15 * 60)
    (hu : env.flagsUpdate = true) :
    update_if_possible env.fetch = ⟨true, false, none⟩
    ∧ run env = ⟨RunResult.done (parse_data env.cacheContent), false, none, true⟩ := by
  have h1 : update_if_possible env.fetch = ⟨true, false, none⟩ := by
    unfold update_if_possible
    rw [hm]
    simp [hfresh]
    intro h2
    exact absurd hfresh (by omega)
  exact ⟨h1, by simp [run, hu, h1]⟩

/-- Claim C6 witness at a concrete environment (cache 100 seconds old). -/
theorem claim_C6_witness :
    update_if_possible c6env.fetch = ⟨true, false, none⟩
    ∧ run c6env = ⟨RunResult.done (parse_data c6env.cacheContent), false, none, true⟩ :=
  claim_C6 c6env 1000 rfl (by decide) rfl

/-- Claim C7: when an update is requested, the cache is absent or stale, and
the HTTP response is not ok, `update_if_possible` reports failure without
writing, and `run` aborts before reading or parsing the cache. -/
theorem claim_C7 (env : RunEnv)
    (hu : env.flagsUpdate = true)
    (hstale : ∀ m, env.fetch.cacheMtime = some m → 15 * 60 ≤ env.fetch.now - m)
    (hbad : env.fetch.responseOk = false) :
    update_if_possible env.fetch = ⟨false, true, none⟩
    ∧ run env = ⟨RunResult.aborted, true, none, false⟩ := by
  have h1 : update_if_possible env.fetch = ⟨false, true, none⟩ := by
    unfold update_if_possible
    cases hmt : env.fetch.cacheMtime with
    | none => simp [hbad]
    | some m =>
      have hs := hstale m hmt
      simp [hbad, show ¬ (env.fetch.now - m < 15 * 60) by omega]
      omega
  exact ⟨h1, by simp [run, hu, h1]⟩

/-- Claim C7 witness at a concrete environment (no cache file, bad response). -/
theorem claim_C7_witness :
    update_if_possible c7env.fetch = ⟨false, true, none⟩
    ∧ run c7env = ⟨RunResult.aborted, true, none, false⟩ :=
  claim_C7 c7env rfl (fun m hm => by simp [c7env] at hm) rfl

/-- Claim C8, counterexample: at exactly 86400 seconds the claimed
days/hours/minutes/seconds decomposition is one day (rendered "1d"), but
`format_dt` renders "24h" (its hour field is not reduced modulo 24). -/
theorem claim_C8_counterexample :
    format_dt 86400 = "24h" ∧ format_dt_spec 86400 = "1d"
    ∧ format_dt 86400 ≠ format_dt_spec 86400 := by decide

/-- Claim C8 (amended): for a non-negative duration, `format_dt` returns
">24h" exactly when the duration exceeds 86400 seconds; strictly below 86400
it agrees with the days/hours/minutes/seconds decomposition rendered with
unit letters and zero-valued units omitted (e.g. 100 -> "1m40s",
200 -> "3m20s"); at exactly 86400 it renders "24h" instead of "1d". -/
theorem claim_C8_amended (dt : Int) (h0 : 0 ≤ dt) :
    (86400 < dt → format_dt dt = ">24h")
    ∧ (dt < 86400 → format_dt dt = format_dt_spec dt)
    ∧ (dt = 86400 → format_dt dt = "24h")
    ∧ format_dt 100 = "1m40s" ∧ format_dt 200 = "3m20s" := by
  have h := format_dt_cases dt h0
  exact ⟨h.1, h.2.1, h.2.2, by decide, by decide⟩

/-- Claim C8 witness: the amended theorem applied at 100 seconds. -/
theorem claim_C8_witness :
    format_dt 100 = format_dt_spec 100 ∧ format_dt_spec 100 = "1m40s" :=
  ⟨(claim_C8_amended 100 (by decide)).2.1 (by decide), by decide⟩

/-- Claim C2, counterexample: in `c2raw` member "a" has one both-star day
whose delta time is `-1` (second star before the first), so the computed
average `(-1)/1` equals the sentinel `-1` although the member has a non-zero
number of both-star days, refuting the claimed "if and only if". -/
theorem claim_C2_counterexample :
    ((alLookup "a" (parse_data c2raw).members).map Member.avg_dt) = some (-1)
    ∧ bothStarCount c2md ≠ 0 := by
  refine ⟨?_, by decide⟩
  rw [parse_members_lookup c2raw "a" c2md (by decide) (by decide)]
  rw [show Option.map Member.avg_dt (some (mkMember "a" c2md))
      = some ((mkMember "a" c2md).avg_dt) from rfl, mkMember_avg_dt]
  rw [show bothStarCount c2md = 1 from by decide,
      show bothStarSum c2md = -1 from by decide]
  norm_num

/-- Claim C2 (amended): for every parsed snapshot and member, the average
delta time is the sentinel `-1` when the member has zero both-star days, and
otherwise equals the both-star sum divided by the both-star count (the
divisor being non-zero); the claimed "if and only if" additionally holds
whenever every second-star timestamp is at least the first-star timestamp
(delta times non-negative), but can fail for negative delta times. -/
theorem claim_C2_amended (raw : RawData) (mid : String) (m : Member)
    (hm : (mid, m) ∈ (parse_data raw).members) :
    ∃ md, (mid, md) ∈ raw.members
      ∧ (bothStarCount md = 0 → m.avg_dt = -1)
      ∧ (bothStarCount md ≠ 0
          → m.avg_dt = (bothStarSum md : Rat) / (bothStarCount md : Rat))
      ∧ ((∀ p ∈ md.completion_day_level, ∀ t2 : Int, p.2.star2 = some t2 → p.2.star1 ≤ t2)
          → (m.avg_dt = -1 ↔ bothStarCount md = 0)) := by
  rcases parse_members_entries raw hm with ⟨q, hq, he⟩
  have hmid : mid = q.1 := congrArg Prod.fst he
  have hmem : m = mkMember q.1 q.2 := congrArg Prod.snd he
  refine ⟨q.2, by rw [hmid, Prod.mk.eta]; exact hq, ?_, ?_, ?_⟩
  · intro hc
    rw [hmem, mkMember_avg_dt, if_pos hc]
  · intro hc
    rw [hmem, mkMember_avg_dt, if_neg hc]
  · intro hts
    constructor
    · intro hav
      by_contra hc
      rw [hmem, mkMember_avg_dt, if_neg hc] at hav
      have hsum : 0 ≤ bothStarSum q.2 := by
        apply List.sum_nonneg
        intro x hx
        rcases List.mem_map.mp hx with ⟨p, hp, hpx⟩
        rcases List.mem_filter.mp hp with ⟨hpmem, hpsome⟩
        rcases Option.isSome_iff_exists.mp hpsome with ⟨t2, ht2⟩
        have hle := hts p hpmem t2 ht2
        rw [← hpx]
        simp only [star2def, ht2, Option.getD_some]
        omega
      have hpos : (0 : Rat) ≤ (bothStarSum q.2 : Rat) / (bothStarCount q.2 : Rat) := by
        apply div_nonneg
        · exact_mod_cast hsum
        · positivity
      rw [hav] at hpos
      norm_num at hpos
    · intro hc
      rw [hmem, mkMember_avg_dt, if_pos hc]

/-- Claim C2 witness: the amended theorem applied to a snapshot with a single
member that has no completions (zero both-star days, sentinel average). -/
theorem claim_C2_witness :
    ∃ md, ("w", md) ∈ c2wraw.members
      ∧ (bothStarCount md = 0 → (Member.mk "w" "W" 0 0 [] 0 (-1)).avg_dt = -1)
      ∧ (bothStarCount md ≠ 0
          → (Member.mk "w" "W" 0 0 [] 0 (-1)).avg_dt
              = (bothStarSum md : Rat) / (bothStarCount md : Rat))
      ∧ ((∀ p ∈ md.completion_day_level, ∀ t2 : Int, p.2.star2 = some t2 → p.2.star1 ≤ t2)
          → ((Member.mk "w" "W" 0 0 [] 0 (-1)).avg_dt = -1 ↔ bothStarCount md = 0)) :=
  claim_C2_amended c2wraw "w" ⟨"w", "W", 0, 0, [], 0, -1⟩ (by decide)

/-- Claim C3: a day with only the first star is recorded with delta time
`0 - first_ts`, is excluded from the member's sum/average accumulation
(which range over both-star days only), and is still inserted into that
day's delta-time mapping. -/
theorem claim_C3 (raw : RawData) (mid : String) (md : RawMember) (day : Nat) (dd0 : DayData)
    (hndm : (raw.members.map Prod.fst).Nodup)
    (hmem : (mid, md) ∈ raw.members)
    (hndd : (md.completion_day_level.map Prod.fst).Nodup)
    (hday : (day, dd0) ∈ md.completion_day_level)
    (h2 : dd0.star2 = none) :
    (∃ m, alLookup mid (parse_data raw).members = some m
      ∧ alLookup day m.days = some ⟨0 - dd0.star1, dd0.star1, 0⟩
      ∧ m.sum_dt = bothStarSum md
      ∧ m.avg_dt = (if bothStarCount md = 0 then (-1 : Rat)
          else (bothStarSum md : Rat) / (bothStarCount md : Rat)))
    ∧ (day, dd0) ∉ bothStarDays md
    ∧ alLookup mid (dayItems (parse_data raw).days_dt day) = some (0 - dd0.star1) := by
  have hzero : star2def dd0 = 0 := by simp [star2def, h2]
  refine ⟨⟨mkMember mid md, parse_members_lookup raw mid md hndm hmem, ?_, ?_, ?_⟩, ?_, ?_⟩
  · rw [mkMember_days_lookup mid md day dd0 hndd hday, hzero]
  · exact mkMember_sum_dt mid md
  · exact mkMember_avg_dt mid md
  · intro hin
    rcases List.mem_filter.mp hin with ⟨_, hsome⟩
    rw [h2] at hsome
    cases hsome
  · rw [parse_ddt_lookup raw mid md day dd0 hndm hmem hndd hday, hzero]

/-- Claim C3 witness: a member whose only completion is a first star on day 3
at timestamp 50. -/
theorem claim_C3_witness :
    (∃ m, alLookup "s" (parse_data c3raw).members = some m
      ∧ alLookup 3 m.days = some ⟨0 - (50 : Int), 50, 0⟩
      ∧ m.sum_dt = bothStarSum c3md
      ∧ m.avg_dt = (if bothStarCount c3md = 0 then (-1 : Rat)
          else (bothStarSum c3md : Rat) / (bothStarCount c3md : Rat)))
    ∧ (3, (⟨50, none⟩ : DayData)) ∉ bothStarDays c3md
    ∧ alLookup "s" (dayItems (parse_data c3raw).days_dt 3) = some (0 - (50 : Int)) :=
  claim_C3 c3raw "s" c3md 3 ⟨50, none⟩ (by decide) (by decide) (by decide) (by decide) rfl

/-- Claim C5: for every parsed snapshot and member id, the accumulated total
equals the sum over days `1..last_day` of the points at the member's rank on
that day (a day on which the member is absent from the delta-time mapping
contributes 0), and the total-standings list is the totals sorted in
descending order of points. -/
theorem claim_C5 (raw : RawData) (mid : String) :
    (alLookup mid (display_total_points (parse_data raw))).getD 0
      = ((List.range (parse_data raw).last_day).map
          (fun i => member_day_points (parse_data raw) (i + 1) mid)).sum
    ∧ (∀ day, alLookup mid (dayItems (parse_data raw).days_dt day) = none
        → member_day_points (parse_data raw) day mid = 0)
    ∧ (id_points_ordered (parse_data raw)).Pairwise (fun a b => b.2 ≤ a.2)
    ∧ (id_points_ordered (parse_data raw)).Perm (display_total_points (parse_data raw)) := by
  refine ⟨display_total_lookup _ mid (fun day => parse_ddt_nodup raw day), ?_, ?_,
    List.perm_insertionSort negPointsLE _⟩
  · intro day hnone
    unfold member_day_points
    have hfind : (List.insertionSort dtLE (dayItems (parse_data raw).days_dt day)).enum.find?
        (fun p => decide (p.2.1 = mid)) = none := by
      apply List.find?_eq_none.mpr
      intro x hx
      simp only [decide_eq_true_eq]
      intro hc
      have hx2 : x.2 ∈ List.insertionSort dtLE (dayItems (parse_data raw).days_dt day) := by
        have hmm := List.mem_map_of_mem Prod.snd hx
        rwa [show (List.insertionSort dtLE (dayItems (parse_data raw).days_dt day)).enum
            = (List.insertionSort dtLE (dayItems (parse_data raw).days_dt day)).enumFrom 0
            from rfl, List.enumFrom_map_snd] at hmm
      have hx3 : x.2 ∈ dayItems (parse_data raw).days_dt day :=
        (List.perm_insertionSort dtLE _).mem_iff.mp hx2
      have hx4 : x.2.1 ∈ (dayItems (parse_data raw).days_dt day).map Prod.fst :=
        List.mem_map_of_mem Prod.fst hx3
      rw [alLookup_eq_none] at hnone
      exact hnone (hc ▸ hx4)
    rw [hfind]
  · exact (List.sorted_insertionSort negPointsLE _).imp (fun hab => neg_le_neg_iff.mp hab)
